import Mathlib

/-!
Verification development for the boring-router core (schema-driven route
matching and the navigation engine).

The embedding follows the TypeScript sources:
  * `BR` models the current core (`core/src/library/router.ts`): route tree
    building, parallel/group matching, and the async navigation transaction
    `_asyncOnLocationChange` with its hook phases, staleness checks, veto
    revert and commit.
  * `BR.Legacy` models the older `src/library/route-match.ts` that is part of
    the repository: pattern compilation in the constructor, the private
    `_match`, `_push` and the `$query` accessor.

Code that the repository only declares or calls but whose body is not in the
sources (the core `RouteMatch` accessors, the `@utils` helpers, the schema
types) is modelled from the specification; every such definition carries a
doc comment starting with "Modelled from the spec:".
-/

namespace BR

/-- Mirrors `s.slice(n)` on a JavaScript string. -/
def strDrop (s : String) (n : Nat) : String := String.mk (s.data.drop n)

/-- Longest run of non-`/` characters at the start of a string; this is what
the regular expression `[^/]*` captures when executed on the string. -/
def takeSeg (s : String) : String := String.mk (s.data.takeWhile (fun c => c ≠ '/'))

/-- Longest run of non-newline characters at the start of a string; this is
what the regular expression `.*` captures when executed on the string. -/
def takeNonNl (s : String) : String := String.mk (s.data.takeWhile (fun c => c ≠ '\n'))

/-- Modelled from the spec: the `@utils` helper `isPathPrefix`/`testPathPrefix`
used by the matchers is not under `src/`; per the spec a matched text must be
"immediately followed by a path separator or end-of-path".  `segBoundaryOk
path m` holds when `path` is exactly `m` or starts with `m` followed by `/`. -/
def segBoundaryOk (path m : String) : Bool :=
  path == m || (m ++ "/").data.isPrefixOf path.data

/-- Modelled from the spec: prefix detection for the router option `prefix`
("detects whether a candidate path lies under a configured prefix", "if a
prefix filter is configured and `L.pathname` does not start with it"). -/
def testBase (pathname pfx : String) : Bool :=
  pfx.data.isPrefixOf pathname.data

/-- Lookup in an association list (JavaScript object / `Map.get`). -/
def dictGet (d : List (String × String)) (k : String) : Option String :=
  (d.find? (fun p => p.1 == k)).map (fun p => p.2)

/-- Assignment `d[k] = v` on a JavaScript object: an existing key keeps its
position and gets the new value, a new key is appended. -/
def dictSet (d : List (String × String)) (k v : String) : List (String × String) :=
  if (d.find? (fun p => p.1 == k)).isSome then
    d.map (fun p => if p.1 == k then (k, v) else p)
  else
    d ++ [(k, v)]

/-- Deletion `delete d[k]` on a JavaScript object. -/
def dictDelete (d : List (String × String)) (k : String) : List (String × String) :=
  d.filter (fun p => p.1 != k)

/-- A history location, pathname plus search string. -/
structure Location where
  pathname : String
  search : String
deriving DecidableEq

/-- Modelled from the spec: `isLocationEqual` lives in the missing `@utils`;
locations are "compared structurally" on path and query. -/
def isLocationEqual (a b : Location) : Bool :=
  a.pathname == b.pathname && a.search == b.search

/-- Modelled from the spec: query parsing via `URLSearchParams`; the search
string (with optional leading `?`) is split on `&`, each part on the first
`=`; duplicate keys follow object-assignment semantics (last value wins).
Percent-decoding is not modelled (never exercised here). -/
def parsePair (part : List Char) : String × String :=
  let key := part.takeWhile (fun c => c ≠ '=')
  let rest := part.drop (key.length + 1)
  (String.mk key, String.mk rest)

/-- Splits a list on a separator character. -/
def splitOn (sep : Char) : List Char → List (List Char)
  | [] => [[]]
  | c :: rest =>
    let tail := splitOn sep rest
    if c = sep then [] :: tail
    else
      match tail with
      | [] => [[c]]
      | t :: ts => (c :: t) :: ts

/-- Modelled from the spec: see `parsePair`. -/
def parseSearch (search : String) : List (String × String) :=
  let chars := match search.data with
    | '?' :: rest => rest
    | l => l
  let parts := (splitOn '&' chars).filter (fun p => p ≠ [])
  parts.foldl (fun d part => let (k, v) := parsePair part; dictSet d k v) []

/-- Modelled from the spec: the compiled match pattern of a core route node
(core `route-match.ts` is not under `src/`).  `$match` is a string literal,
`"*"`, `"**"`, or a pre-compiled non-global regular expression; a regular
expression is abstracted by its `exec` function returning the matched text. -/
inductive CorePattern where
  | str (s : String)
  | star
  | starStar
  | regexp (exec : String → Option String)

/-- A whitelist declared on a primary match node (`_parallel` in the engine):
groups and explicitly named matches that may coexist with it (the source
field `matches` is a Lean keyword, hence `matchRefs`). -/
structure ParallelWhitelist where
  groups : List String
  matchRefs : List (List String)

/-- One node of the compiled route tree.  The `id` is the key path from the
root, standing in for the object identity of the TypeScript `RouteMatch`. -/
inductive RouteNode where
  | mk (id : List String) (pattern : CorePattern) (exact : Bool)
       (group : Option String) (parallel : Option ParallelWhitelist)
       (children : List RouteNode)

def RouteNode.idOf : RouteNode → List String
  | .mk i _ _ _ _ _ => i

def RouteNode.patternOf : RouteNode → CorePattern
  | .mk _ p _ _ _ _ => p

def RouteNode.exactOf : RouteNode → Bool
  | .mk _ _ e _ _ _ => e

def RouteNode.groupOf : RouteNode → Option String
  | .mk _ _ _ g _ _ => g

def RouteNode.parallelOf : RouteNode → Option ParallelWhitelist
  | .mk _ _ _ _ w _ => w

def RouteNode.childrenOf : RouteNode → List RouteNode
  | .mk _ _ _ _ _ c => c

/-- Result of matching one node against the remaining path, mirroring the
`{matched, exactlyMatched, segment, rest}` record consumed by `Router._match`. -/
structure NodeMatchResult where
  matched : Bool
  exactlyMatched : Bool
  segment : Option String
  rest : String
deriving DecidableEq

/-- Modelled from the spec: what a single pattern captures from the remaining
path (after the leading `/` has been stripped), or `none` when it does not
match.  A literal matches iff the next segment equals it exactly; `"*"`
matches exactly one non-empty segment; `"**"` matches the whole remainder; a
regular expression must match at the current position and stop at a segment
boundary (a boundary violation is a configuration error per the spec, so the
runtime model treats it as no match — no claim exercises core regexes). -/
def coreExec : CorePattern → String → Option String
  | .str p, r => if segBoundaryOk r p then some p else none
  | .star, r => let m := takeSeg r; if m == "" then none else some m
  | .starStar, r => some r
  | .regexp f, r =>
    match f r with
    | some m => if segBoundaryOk r m then some m else none
    | none => none

/-- Modelled from the spec: the core `RouteMatch._match` (its file is not
under `src/`).  It consumes one leading `/` plus what the pattern captures;
`exactlyMatched` holds when nothing remains and the node may terminate the
chain — a node with children terminates only when declared `$exact`
(spec section 4.2, "a node declared exact only terminates the chain
successfully if, after its own match, no remaining path segments exist"). -/
def nodeMatch (node : RouteNode) (upperRest : String) : NodeMatchResult :=
  if upperRest == "" then ⟨false, false, none, ""⟩
  else
    let r := strDrop upperRest 1
    match coreExec node.patternOf r with
    | none => ⟨false, false, none, ""⟩
    | some m =>
      let rest := strDrop r m.length
      let exactly := rest == "" && (node.exactOf || node.childrenOf.isEmpty)
      ⟨true, exactly, some m, rest⟩

/-- One entry of a matched chain: the node, whether it is the exact (deepest)
match, and the path segment it captured. -/
structure ChainEntry where
  node : RouteNode
  exact : Bool
  segment : String

/-- One step of `Router._match` at one sibling, parameterised by the function
used for the subtree (the engine's recursive `this._match(routeMatch, rest)`),
and the fallback for the remaining siblings (`continue`). -/
def siblingStep (recur : List RouteNode → String → Option (List ChainEntry))
    (upperRest : String) (n : RouteNode) (fallback : Option (List ChainEntry)) :
    Option (List ChainEntry) :=
  let res := nodeMatch n upperRest
  if res.matched then
    if res.exactlyMatched then
      some [⟨n, true, res.segment.getD ""⟩]
    else
      match recur n.childrenOf res.rest with
      | some result => some (⟨n, false, res.segment.getD ""⟩ :: result)
      | none => fallback
  else fallback

/-- Fueled version of `Router._match`: walks the sibling list in declaration
order; a sibling that matches and is exactly matched ends the chain; a
sibling that matches but whose subtree fails is skipped (`continue`) in
favour of later siblings.  Fuel is consumed only when descending into
children; since every descent consumes at least the leading `/` of the
remaining path, any fuel above the path length is equivalent
(`matchChainD_stable`). -/
def matchChainD : Nat → List RouteNode → String → Option (List ChainEntry)
  | 0, _, _ => none
  | fuel + 1, nodes, upperRest =>
    nodes.foldr (siblingStep (matchChainD fuel) upperRest) none

/-- `Router._match` over a sibling list: declaration-order traversal with the
first complete chain winning. -/
def matchChain (nodes : List RouteNode) (p : String) : Option (List ChainEntry) :=
  matchChainD (p.length + 1) nodes p

/-- The attempt the engine makes at one particular sibling: its own match,
then (unless exactly matched) its subtree. -/
def chainAt (n : RouteNode) (upperRest : String) : Option (List ChainEntry) :=
  let res := nodeMatch n upperRest
  if res.matched then
    if res.exactlyMatched then
      some [⟨n, true, res.segment.getD ""⟩]
    else
      (matchChain n.childrenOf res.rest).map (fun r => ⟨n, false, res.segment.getD ""⟩ :: r)
  else none

/-- A declared route schema node (`$match`, `$exact`, `$group`, `$children`);
`groupOverride = some g` renders a schema entry that has the `$group` key
(with value `g`), `none` renders an entry without it (the shorthand `true`
entry is the all-`none`/default record).  Query declarations and `$extension`
carry no behaviour relevant to the verified claims and are omitted. -/
inductive RouteSchema where
  | mk (matchOpt : Option CorePattern) (exact : Bool)
       (groupOverride : Option (Option String))
       (children : List (String × RouteSchema))

def RouteSchema.matchOptOf : RouteSchema → Option CorePattern
  | .mk m _ _ _ => m

def RouteSchema.exactOf : RouteSchema → Bool
  | .mk _ e _ _ => e

def RouteSchema.groupOverrideOf : RouteSchema → Option (Option String)
  | .mk _ _ g _ => g

def RouteSchema.childrenOf : RouteSchema → List (String × RouteSchema)
  | .mk _ _ _ c => c

/-- The shorthand `true` schema entry. -/
def schemaDefault : RouteSchema := .mk none false none []

/-- `Router._build`: one node per schema entry, in declaration order; the
match pattern defaults to the segment-matcher applied to the key, `$exact`
defaults to false, and the group is the parent's group unless the entry
carries `$group`.  Fuel only bounds the recursion depth; concrete schemas are
built with fuel larger than their depth, making it irrelevant. -/
def buildF : Nat → (String → String) → List String → Option String →
    List (String × RouteSchema) → List RouteNode
  | 0, _, _, _, _ => []
  | fuel + 1, sm, pid, pg, dict =>
    dict.map (fun ks =>
      let key := ks.1
      let s := ks.2
      let g := match s.groupOverrideOf with
        | some g => g
        | none => pg
      let pat := s.matchOptOf.getD (CorePattern.str (sm key))
      RouteNode.mk (pid ++ [key]) pat s.exactOf g none
        (buildF fuel sm (pid ++ [key]) g s.childrenOf))

/-- Group collection in `Router._build`: the group set is only populated for
top-level entries (`_build` passes `undefined` for the recursive calls), in
declaration order, deduplicated (a `Set`). -/
def collectGroups (dict : List (String × RouteSchema)) : List String :=
  dict.foldl (fun acc ks =>
    match ks.2.groupOverrideOf with
    | some (some g) => if acc.contains g then acc else acc ++ [g]
    | _ => acc) []

/-- One value of the engine's `matchToMatchEntryMap`, keyed separately by the
node id (the TypeScript entry also holds the `match` reference itself). -/
structure RouteMatchEntry where
  exact : Bool
  segment : String
deriving DecidableEq

/-- A `RouteSource` snapshot: matched-entry map, query dict and per-group path
dict.  The committed and the speculative (matching) snapshot both have this
shape. -/
structure RouteSource where
  matchToMatchEntryMap : List (List String × RouteMatchEntry)
  queryDict : List (String × String)
  pathDict : List (String × String)
deriving DecidableEq

/-- The empty snapshot both sources start from. -/
def emptySource : RouteSource := ⟨[], [], []⟩

/-- The engine's mutable state: committed source, speculative source and the
last committed location. -/
structure RouterState where
  source : RouteSource
  matchingSource : RouteSource
  location : Option Location
deriving DecidableEq

/-- The immutable configuration of a router: compiled children, collected
top-level groups, path prefix (`pfx`) and the default location used by
`_revert` when nothing has been committed yet. -/
structure RouterConfig where
  children : List RouteNode
  groups : List String
  pfx : String
  fallback : Location

/-- The registered before-hooks, abstracted as the boolean outcome each node's
hook chain produces (no registered hook behaves as `true`, the implicit
allow). -/
structure HookEnv where
  beforeLeave : List String → Bool
  beforeEnter : List String → Bool
  beforeUpdate : List String → Bool

/-- Observable happenings of one transition: hook invocations (with the
boolean each before-hook returned) and `_update` calls on nodes. -/
inductive Event where
  | beforeLeave (n : List String) (result : Bool)
  | beforeEnter (n : List String) (result : Bool)
  | beforeUpdate (n : List String) (result : Bool)
  | update (n : List String) (active : Bool) (exact : Bool)
  | afterLeave (n : List String)
  | afterEnter (n : List String)
  | afterUpdate (n : List String)
deriving DecidableEq

/-- Calls the engine makes on its collaborators: `history.replace` (revert),
the configured `onLeave` and `onChange` callbacks. -/
inductive Effect where
  | replace (loc : Location)
  | onLeave (pathname : String)
  | onChange (fromLoc : Option Location) (toLoc : Location)
deriving DecidableEq

/-- How a transition ended. -/
inductive Outcome where
  | staleEntry
  | noop
  | leftBase
  | stale
  | vetoed
  | committed
deriving DecidableEq

/-- Result of one before-hook phase. -/
inductive PhaseOutcome where
  | proceed
  | stale
  | vetoed
deriving DecidableEq

/-- What a before-hook loop produced: next staleness-check counter, fired
events, and how the phase ended. -/
structure LoopRes where
  k : Nat
  evs : List Event
  out : PhaseOutcome
deriving DecidableEq

/-- Everything `_asyncOnLocationChange` produces: the state afterwards, the
effects issued, the events fired, and the outcome. -/
structure RunResult where
  state : RouterState
  effects : List Effect
  events : List Event
  outcome : Outcome
deriving DecidableEq

/-- Group route-path extraction from the query dict (`for (let group of
this._groups)` in `_asyncOnLocationChange`): a present `_<group>` key is
removed from the query dict; a non-empty value contributes a path info and a
path-dict entry.  Returns (pathInfos tail, pathDict tail, remaining query). -/
def extractGroups : List String → List (String × String) →
    List (String × Option String) × List (String × String) × List (String × String)
  | [], q => ([], [], q)
  | g :: rest, q =>
    let key := "_" ++ g
    match dictGet q key with
    | none => extractGroups rest q
    | some v =>
      let q1 := dictDelete q key
      let (infos, pd, qf) := extractGroups rest q1
      if v == "" then (infos, pd, qf)
      else ((v, some g) :: infos, (g, v) :: pd, qf)

/-- The engine's per-slot match loop: each candidate path is matched against
the root tree; an empty result is skipped; a chain whose first entry's group
is not the slot's group is skipped; otherwise the chain is stored under the
slot (JavaScript `Map.set` semantics). -/
def groupMapSet (m : List (Option String × List ChainEntry)) (k : Option String)
    (v : List ChainEntry) : List (Option String × List ChainEntry) :=
  if (m.find? (fun p => p.1 == k)).isSome then
    m.map (fun p => if p.1 == k then (k, v) else p)
  else
    m ++ [(k, v)]

def groupMapStep (nodes : List RouteNode)
    (acc : List (Option String × List ChainEntry)) (info : String × Option String) :
    List (Option String × List ChainEntry) :=
  let entries := (matchChain nodes info.1).getD []
  if entries.isEmpty then acc
  else if (entries.head?.map (fun e => e.node.groupOf)) == some info.2 then
    groupMapSet acc info.2 entries
  else acc

def buildGroupMap (nodes : List RouteNode)
    (infos : List (String × Option String)) :
    List (Option String × List ChainEntry) :=
  infos.foldl (groupMapStep nodes) []

/-- Lookup in the group-to-entries map. -/
def groupMapGet (m : List (Option String × List ChainEntry)) (k : Option String) :
    Option (List ChainEntry) :=
  (m.find? (fun p => p.1 == k)).map (fun p => p.2)

/-- The primary-match parallel-whitelist merge: nothing is kept without a
primary match; with one, a declared whitelist keeps the primary slot plus the
groups (or explicitly named matches) it lists, otherwise every resolved slot
is kept, in map order. -/
def mergeParallel (groupMap : List (Option String × List ChainEntry)) :
    List ChainEntry :=
  match groupMapGet groupMap none with
  | none => []
  | some primaryEntries =>
    match primaryEntries.head? with
    | none => []
    | some p0 =>
      match p0.node.parallelOf with
      | some wl =>
        groupMap.foldl (fun acc gp =>
          match gp.2.head? with
          | none => acc
          | some e0 =>
            let keep := match gp.1 with
              | none => true
              | some gname =>
                wl.groups.contains gname || wl.matchRefs.contains e0.node.idOf
            if keep then acc ++ gp.2 else acc) []
      | none => groupMap.foldl (fun acc gp => acc ++ gp.2) []

/-- `matchToMatchEntryMap.set(entry.match, entry)` over the merged entries. -/
def entriesToMap (entries : List ChainEntry) :
    List (List String × RouteMatchEntry) :=
  entries.foldl (fun acc e =>
    if (acc.find? (fun p => p.1 == e.node.idOf)).isSome then
      acc.map (fun p => if p.1 == e.node.idOf then (e.node.idOf, ⟨e.exact, e.segment⟩) else p)
    else
      acc ++ [(e.node.idOf, ⟨e.exact, e.segment⟩)]) []

/-- The primary candidate path: the pathname with the prefix stripped,
defaulting to `/` when nothing remains. -/
def strippedPath (cfg : RouterConfig) (next : Location) : String :=
  let s := strDrop next.pathname cfg.pfx.length
  if s == "" then "/" else s

/-- Steps 3–9 of `_asyncOnLocationChange`: parse the query, extract per-group
paths, match every candidate path, filter by slot group, apply the parallel
whitelist, and assemble the speculative `RouteSource` that is published
before the hook phases. -/
def computeNextSource (cfg : RouterConfig) (next : Location) : RouteSource :=
  let queryDict0 := parseSearch next.search
  let pathWithout := strippedPath cfg next
  let (ginfos, gpd, queryDict) := extractGroups cfg.groups queryDict0
  let pathInfos := (pathWithout, (none : Option String)) :: ginfos
  let pathDict := ("_", pathWithout) :: gpd
  let groupMap := buildGroupMap cfg.children pathInfos
  let entries := mergeParallel groupMap
  ⟨entriesToMap entries, queryDict, pathDict⟩

/-- Non-empty prefixes of a node id: the ancestor chain including the node. -/
def idAncestors (id : List String) : List (List String) :=
  (List.range id.length).map (fun i => id.take (i + 1))

/-- Lookup of a node's entry in a source map. -/
def entryOf (src : RouteSource) (id : List String) : Option RouteMatchEntry :=
  (src.matchToMatchEntryMap.find? (fun p => p.1 == id)).map (fun p => p.2)

/-- Modelled from the spec: `RouteMatch._pathSegments` (core `route-match.ts`
is not under `src/`) — "path fragments captured by this node and ancestors",
read from the given snapshot. -/
def segmentsOf (src : RouteSource) (id : List String) : List (Option String) :=
  (idAncestors id).map (fun a => (entryOf src a).map (fun e => e.segment))

/-- Modelled from the spec: the observable `$exact` of a node as recorded in
a snapshot (false when the node is not in the matched map). -/
def exactOfSrc (src : RouteSource) (id : List String) : Bool :=
  ((entryOf src id).map (fun e => e.exact)).getD false

/-- Keys of the committed matched map, in map order. -/
def prevKeysOf (st : RouterState) : List (List String) :=
  st.source.matchToMatchEntryMap.map (fun p => p.1)

/-- Keys of the computed next matched map, in map order. -/
def nextKeysOf (cfg : RouterConfig) (next : Location) : List (List String) :=
  (computeNextSource cfg next).matchToMatchEntryMap.map (fun p => p.1)

/-- `leavingMatchSet`: committed minus next, in committed order. -/
def leavingOf (cfg : RouterConfig) (st : RouterState) (next : Location) :
    List (List String) :=
  (prevKeysOf st).filter (fun m => !((nextKeysOf cfg next).contains m))

/-- `enteringAndUpdatingMatchSet`: the next set minus every node that is also
committed with unchanged captured segments and unchanged exactness. -/
def eauOf (cfg : RouterConfig) (st : RouterState) (next : Location) :
    List (List String) :=
  let ms := computeNextSource cfg next
  (nextKeysOf cfg next).filter (fun m =>
    !((prevKeysOf st).contains m &&
      (segmentsOf st.source m == segmentsOf ms m) &&
      (exactOfSrc st.source m == exactOfSrc ms m)))

/-- The `_update` calls of the commit step: leaving nodes deactivate in
reverse order, then every next-set node activates with its entry's exactness. -/
def updEventsOf (cfg : RouterConfig) (st : RouterState) (next : Location) :
    List Event :=
  (leavingOf cfg st next).reverse.map (fun n => Event.update n false false) ++
    (nextKeysOf cfg next).map (fun n =>
      Event.update n true (exactOfSrc (computeNextSource cfg next) n))

/-- The after-hook notifications: `afterLeave` in reverse leaving order, then
`afterUpdate`/`afterEnter` over the entering-and-updating set. -/
def afterEventsOf (cfg : RouterConfig) (st : RouterState) (next : Location) :
    List Event :=
  (leavingOf cfg st next).reverse.map Event.afterLeave ++
    (eauOf cfg st next).map (fun n =>
      if (prevKeysOf st).contains n then Event.afterUpdate n else Event.afterEnter n)

/-- The `beforeLeave` phase: deepest first, each hook is awaited, then the
staleness token is checked (abandon), then a falsy result vetoes. -/
def beforeLeaveLoop (h : HookEnv) (od : Nat → Bool) :
    Nat → List (List String) → LoopRes
  | k, [] => ⟨k, [], .proceed⟩
  | k, n :: rest =>
    let result := h.beforeLeave n
    let ev := Event.beforeLeave n result
    if od k then ⟨k + 1, [ev], .stale⟩
    else if !result then ⟨k + 1, [ev], .vetoed⟩
    else
      let r := beforeLeaveLoop h od (k + 1) rest
      ⟨r.k, ev :: r.evs, r.out⟩

/-- The `beforeEnter`/`beforeUpdate` phase: forward order; a node also in the
committed set (`update = previousMatchSet.has(match)`) gets `beforeUpdate`,
otherwise `beforeEnter`; staleness and veto as in the leave phase. -/
def beforeEnterLoop (h : HookEnv) (od : Nat → Bool) (prevKeys : List (List String)) :
    Nat → List (List String) → LoopRes
  | k, [] => ⟨k, [], .proceed⟩
  | k, n :: rest =>
    if prevKeys.contains n then
      let result := h.beforeUpdate n
      let ev := Event.beforeUpdate n result
      if od k then ⟨k + 1, [ev], .stale⟩
      else if !result then ⟨k + 1, [ev], .vetoed⟩
      else
        let r := beforeEnterLoop h od prevKeys (k + 1) rest
        ⟨r.k, ev :: r.evs, r.out⟩
    else
      let result := h.beforeEnter n
      let ev := Event.beforeEnter n result
      if od k then ⟨k + 1, [ev], .stale⟩
      else if !result then ⟨k + 1, [ev], .vetoed⟩
      else
        let r := beforeEnterLoop h od prevKeys (k + 1) rest
        ⟨r.k, ev :: r.evs, r.out⟩

/-- The equality guard of step 2: a committed location structurally equal to
the incoming one. -/
def locEqualsCommitted (committed : Option Location) (next : Location) : Bool :=
  match committed with
  | some loc => isLocationEqual loc next
  | none => false

/-- `Router._asyncOnLocationChange`, with the staleness token abstracted as
the oracle `od` (the value of `location !== this._nextLocation` at the k-th
check of this transition) and the hook outcomes abstracted by `h`.

Order of business, mirroring the source: entry staleness check; structural
no-op check against the committed location; query parse; prefix guard
(`onLeave` and abort); speculative-source publication; diff computation;
`beforeLeave` loop (reverse), `beforeEnter`/`beforeUpdate` loop (forward),
each hook followed by a staleness check and then a veto check that calls
`_revert` (`history.replace` of the committed location or the default);
commit (location, then source wholesale); `_update` calls; after hooks;
`onChange`. -/
def asyncOnLocationChange (cfg : RouterConfig) (h : HookEnv) (od : Nat → Bool)
    (st : RouterState) (next : Location) : RunResult :=
  if od 0 then ⟨st, [], [], .staleEntry⟩
  else if locEqualsCommitted st.location next then ⟨st, [], [], .noop⟩
  else if !(testBase next.pathname cfg.pfx) then
    ⟨st, [Effect.onLeave next.pathname], [], .leftBase⟩
  else
    let ms := computeNextSource cfg next
    let st1 : RouterState := ⟨st.source, ms, st.location⟩
    let revLeaving := (leavingOf cfg st next).reverse
    let r1 := beforeLeaveLoop h od 1 revLeaving
    match r1.out with
    | .stale => ⟨st1, [], r1.evs, .stale⟩
    | .vetoed => ⟨st1, [Effect.replace (st.location.getD cfg.fallback)], r1.evs, .vetoed⟩
    | .proceed =>
      let r2 := beforeEnterLoop h od (prevKeysOf st) r1.k (eauOf cfg st next)
      match r2.out with
      | .stale => ⟨st1, [], r1.evs ++ r2.evs, .stale⟩
      | .vetoed =>
        ⟨st1, [Effect.replace (st.location.getD cfg.fallback)],
          r1.evs ++ r2.evs, .vetoed⟩
      | .proceed =>
        ⟨⟨ms, ms, some next⟩, [Effect.onChange st.location next],
          r1.evs ++ r2.evs ++ updEventsOf cfg st next ++ afterEventsOf cfg st next,
          .committed⟩

namespace Legacy

/-- A JavaScript `RegExp` value as the legacy `route-match.ts` consumes it:
its `global` flag and its `exec` behaviour, abstracted as the first matched
text in a string (or none). -/
structure Rx where
  global : Bool
  exec : String → Option String

/-- The `match` option handed to the legacy `RouteMatch` constructor. -/
inductive MatchInput where
  | rx (r : Rx)
  | str (s : String)

/-- The compiled `_matchPattern` the constructor stores. -/
inductive CompiledPattern where
  | str (s : String)
  | star
  | starStar
  | rx (r : Rx)

/-- Error message thrown by the constructor for a global regular expression. -/
def globalRxMsg : String :=
  "Expecting a non-global regular expression as match pattern"

/-- Error message thrown by `_match` when the matched text does not stop at a
path boundary (simplified, without the interpolated texts). -/
def invalidPatternMsg : String :=
  "Invalid regular expression pattern, expecting rest of path to be started with a slash after match"

/-- Error message thrown by `_match` when the rest does not start with `/`
(simplified, without the interpolated text). -/
def badRestMsg : String :=
  "Expecting rest of path to be started with a slash"

/-- The legacy `RouteMatch` constructor, lines 46–66: a global regular
expression is rejected at construction; `"*"` compiles to the regular
expression `[^/]*`, `"**"` to `.*`; any other string stays a literal. -/
def construct (m : MatchInput) : Except String CompiledPattern :=
  match m with
  | .rx r => if r.global then .error globalRxMsg else .ok (.rx r)
  | .str s =>
    if s == "*" then .ok .star
    else if s == "**" then .ok .starStar
    else .ok (.str s)

/-- What the compiled regular-expression patterns capture: `[^/]*` captures
the (possibly empty) run of non-`/` characters at the start, `.*` the run of
non-newline characters, a custom `Rx` whatever its `exec` finds. -/
def execCompiled : CompiledPattern → String → Option String
  | .star, r => some (takeSeg r)
  | .starStar, r => some (takeNonNl r)
  | .rx f, r => f.exec r
  | .str _, _ => none

/-- The legacy private `RouteMatch._match`, lines 184–241: nothing matches a
skipped node or an empty rest; a rest not starting with `/` throws; after
stripping the `/`, a string pattern matches iff it sits at a path boundary,
and a regular-expression pattern's captured text must sit at a path boundary
or the call throws. -/
def matchStep (pat : CompiledPattern) (skipped : Bool) (rest : String) :
    Except String (Option String × String) :=
  if skipped || rest == "" then .ok (none, "")
  else if !(rest.data.head? == some '/') then .error badRestMsg
  else
    let r := strDrop rest 1
    match pat with
    | .str p =>
      if segBoundaryOk r p then .ok (some p, strDrop r p.length)
      else .ok (none, "")
    | other =>
      match execCompiled other r with
      | some m =>
        if !(segBoundaryOk r m) then .error invalidPatternMsg
        else .ok (some m, strDrop r m.length)
      | none => .ok (none, "")

/-- The mutable fields of a legacy `RouteMatch`: `_matched`, `_fragments`
(definite-assignment asserted, so `none` until first `_push`), `_query`
(undefined until first `_push`). -/
structure MatchState where
  matched : Bool
  fragments : Option (List (String × Option String))
  query : Option (List (String × String))
deriving DecidableEq

/-- A fresh legacy `RouteMatch` right after construction. -/
def initialState : MatchState := ⟨false, none, none⟩

/-- The `$query` getter, lines 76–86: throws while `_query` is still
undefined, returns the stored dict otherwise. -/
def queryGet (st : MatchState) : Except String (List (String × String)) :=
  match st.query with
  | none => .error "Query is not accessible, make sure you added it to schema"
  | some q => .ok q

/-- Upsert on a fragment dict (JavaScript object spread plus keyed write). -/
def fragSet (d : List (String × Option String)) (k : String) (v : Option String) :
    List (String × Option String) :=
  if (d.find? (fun p => p.1 == k)).isSome then
    d.map (fun p => if p.1 == k then (k, v) else p)
  else
    d ++ [(k, v)]

/-- What `_push` returns to the caller. -/
structure PushResult where
  matched : Bool
  rest : String
  fragmentDict : List (String × Option String)
  queryDict : List (String × String)
deriving DecidableEq

/-- The legacy `RouteMatch._push`, lines 126–182: runs `_match`; records the
captured fragment (falling back to a string pattern's literal, or undefined
for other patterns, when unmatched); merges — only when query keys are
declared and the node matched — the declared keys present in the source
query dict on top of the upper query dict; and unconditionally stores the
fragment dict and the (possibly empty) query dict on the node. -/
def push (name : String) (pat : CompiledPattern) (queryKeys : Option (List String))
    (_st : MatchState) (skipped : Bool) (upperRest : String)
    (upperFragmentDict : List (String × Option String))
    (upperQueryDict : List (String × String))
    (sourceQueryDict : List (String × String)) :
    Except String (MatchState × PushResult) :=
  match matchStep pat skipped upperRest with
  | .error e => .error e
  | .ok (current, rest) =>
    let matched := current.isSome
    let fragValue : Option String :=
      match current with
      | some c => some c
      | none =>
        match pat with
        | .str p => some p
        | _ => none
    let fragmentDict := fragSet upperFragmentDict name fragValue
    let addition : List (String × String) :=
      match queryKeys with
      | some keys =>
        if matched then
          keys.foldl (fun d key =>
            match dictGet sourceQueryDict key with
            | some v => dictSet d key v
            | none => d) []
        else []
      | none => []
    let queryDict := addition.foldl (fun d kv => dictSet d kv.1 kv.2) upperQueryDict
    let st1 : MatchState := ⟨matched, some fragmentDict, some queryDict⟩
    .ok (st1, ⟨matched, rest, fragmentDict, queryDict⟩)

end Legacy

/-- Whether an event is a before-hook invocation that returned a falsy
result. -/
def falsyBefore : Event → Bool
  | .beforeLeave _ false => true
  | .beforeEnter _ false => true
  | .beforeUpdate _ false => true
  | _ => false

/-- The node a hook event concerns; `none` for `_update` calls, which are not
hook invocations. -/
def hookNodeOf : Event → Option (List String)
  | .beforeLeave n _ => some n
  | .beforeEnter n _ => some n
  | .beforeUpdate n _ => some n
  | .afterLeave n => some n
  | .afterEnter n => some n
  | .afterUpdate n => some n
  | .update _ _ _ => none

/-- Whether an event is an `_update` call on a node's observable fields. -/
def isUpdateEvent : Event → Bool
  | .update _ _ _ => true
  | _ => false

/-- Identity segment matcher used by the concrete scenarios (the default
`hyphenate(key, lowerCase)` is the identity on the plain lowercase keys used
there). -/
def idm : String → String := fun s => s

/-- Hook environment with no registered before-hook (every phase implicitly
allows). -/
def allTrue : HookEnv := ⟨fun _ => true, fun _ => true, fun _ => true⟩

/-- Staleness oracle of a transition that stays the latest requested one. -/
def odF : Nat → Bool := fun _ => false

/-- Staleness oracle of a transition superseded right after the first awaited
hook: the entry check passes, every later check observes a newer location. -/
def odStale : Nat → Bool := fun k => k != 0

/-- A fresh router state: nothing committed, no location yet. -/
def st0 : RouterState := ⟨emptySource, emptySource, none⟩

/-- Schema of the hook test scenario: `parent: {$exact: true, $children:
{nested: true}}`. -/
def c9schema : List (String × RouteSchema) :=
  [("parent", .mk none true none [("nested", schemaDefault)])]

def c9cfg : RouterConfig :=
  ⟨buildF 10 idm [] none c9schema, collectGroups c9schema, "", ⟨"/", ""⟩⟩

/-- First navigation of the scenario: to `/parent/nested`. -/
def c9run1 : RunResult :=
  asyncOnLocationChange c9cfg allTrue odF st0 ⟨"/parent/nested", ""⟩

/-- Second navigation of the scenario: to `/parent`. -/
def c9run2 : RunResult :=
  asyncOnLocationChange c9cfg allTrue odF c9run1.state ⟨"/parent", ""⟩

/-- Sibling pair for the matching-order scenario: `first` (with child `x`)
declared before `second`, whose `$match` is the same literal `first` (child
`z`); these are the nodes `_build` produces for the schema
`{first: {$children: {x: true}}, second: {$match: 'first', $children: {z: true}}}`. -/
def c2first : RouteNode :=
  RouteNode.mk ["first"] (.str "first") false none none
    [RouteNode.mk ["first", "x"] (.str "x") false none none []]

def c2second : RouteNode :=
  RouteNode.mk ["second"] (.str "first") false none none
    [RouteNode.mk ["second", "z"] (.str "z") false none none []]

/-- Projection of a chain to node ids (node values carry functions, ids are
decidable). -/
def chainIds (c : Option (List ChainEntry)) : Option (List (List String)) :=
  c.map (fun entries => entries.map (fun e => e.node.idOf))

/-- Projection of a chain to the groups of its nodes. -/
def chainGroups (c : Option (List ChainEntry)) : Option (List (Option String)) :=
  c.map (fun entries => entries.map (fun e => e.node.groupOf))

/-- Schema of the group-filter scenario: a primary node `p`, and a top-level
group node `g1top` (group `g1`) whose child `c` overrides the group to `g2`. -/
def c6schema : List (String × RouteSchema) :=
  [("p", schemaDefault),
   ("g1top", .mk none false (some (some "g1"))
      [("c", .mk none false (some (some "g2")) [])])]

def c6cfg : RouterConfig :=
  ⟨buildF 10 idm [] none c6schema, collectGroups c6schema, "", ⟨"/", ""⟩⟩

/-- Location whose primary path is `/p` and whose `_g1` query parameter
carries the group path `/g1top/c`. -/
def c6loc : Location := ⟨"/p", "?_g1=/g1top/c"⟩

/-- The chain the group slot `g1` resolves to in the scenario. -/
def c6chain : List ChainEntry :=
  (matchChain c6cfg.children "/g1top/c").getD []

/-- Schema used by the veto/stale scenarios: two plain leaves. -/
def c1schema : List (String × RouteSchema) :=
  [("about", schemaDefault), ("revert", schemaDefault)]

def c1cfg : RouterConfig :=
  ⟨buildF 10 idm [] none c1schema, [], "", ⟨"/", ""⟩⟩

/-- Hooks of the veto scenarios: every `beforeEnter` returns false. -/
def c1hooks : HookEnv := ⟨fun _ => true, fun _ => false, fun _ => true⟩

/-- Router state with `/about` committed. -/
def c1st : RouterState :=
  ⟨⟨[(["about"], ⟨true, "about"⟩)], [], [("_", "/about")]⟩, emptySource,
    some ⟨"/about", ""⟩⟩

/-- The veto scenario run: navigating `/about` → `/revert` with a falsy
`beforeEnter` and no newer location. -/
def c1run : RunResult :=
  asyncOnLocationChange c1cfg c1hooks odF c1st ⟨"/revert", ""⟩

/-- The counterexample run for the unconditional-revert reading: the falsy
`beforeEnter` fires, but a newer location is observed at the very next
staleness check. -/
def c1staleRun : RunResult :=
  asyncOnLocationChange c1cfg c1hooks odStale st0 ⟨"/revert", ""⟩

/-- The stale-abandon scenario run: `/about` is committed, a transition to
`/revert` awaits `about`'s `beforeLeave` and then observes a newer location. -/
def c8run : RunResult :=
  asyncOnLocationChange c1cfg allTrue odStale c1st ⟨"/revert", ""⟩

/-- Schema for the no-primary-match scenario: a leaf and a top-level group
node, so `_g` group paths resolve independently. -/
def c10schema : List (String × RouteSchema) :=
  [("about", schemaDefault),
   ("gtop", .mk none false (some (some "g")) [])]

def c10cfg : RouterConfig :=
  ⟨buildF 10 idm [] none c10schema, collectGroups c10schema, "", ⟨"/", ""⟩⟩

/-- Router state with `/persist` committed (an id outside `c10cfg`'s tree,
standing for a previously matched node set). -/
def c10st : RouterState :=
  ⟨⟨[(["persist"], ⟨true, "persist"⟩)], [], [("_", "/persist")]⟩, emptySource,
    some ⟨"/persist", ""⟩⟩

/-- A regular expression whose matched text is not followed by a path
separator or end-of-path on the rest it is run against. -/
def c5rx : Legacy.Rx := ⟨false, fun _ => some "ab"⟩

/-! Helper lemmas about the matcher. -/

theorem strDrop_length (s : String) (n : Nat) :
    (strDrop s n).length = s.length - n := by
  cases s with
  | mk l =>
    show (l.drop n).length = l.length - n
    exact List.length_drop n l

theorem matched_ne_empty (n : RouteNode) (p : String)
    (hm : (nodeMatch n p).matched = true) : (p == "") = false := by
  cases hb : (p == "") with
  | false => rfl
  | true => rw [nodeMatch, hb] at hm; simp at hm

theorem length_pos_of_beq_empty_false (p : String) (h : (p == "") = false) :
    0 < p.length := by
  cases p with
  | mk l =>
    cases l with
    | nil => simp at h
    | cons c t => simp [String.length]

theorem nodeMatch_rest_length (n : RouteNode) (p : String)
    (hm : (nodeMatch n p).matched = true) :
    (nodeMatch n p).rest.length < p.length := by
  have hne := matched_ne_empty n p hm
  have hpos := length_pos_of_beq_empty_false p hne
  rw [nodeMatch, hne]
  simp only [Bool.false_eq_true, if_false]
  cases coreExec n.patternOf (strDrop p 1) with
  | none => simpa using hpos
  | some m =>
    simp only [strDrop_length]
    omega

theorem matchChainD_stable :
    ∀ (f1 f2 : Nat) (nodes : List RouteNode) (p : String),
      p.length < f1 → p.length < f2 →
      matchChainD f1 nodes p = matchChainD f2 nodes p := by
  intro f1
  induction f1 with
  | zero => intro f2 nodes p h1 _; omega
  | succ f1 ih =>
    intro f2 nodes p h1 h2
    match f2 with
    | 0 => omega
    | f2 + 1 =>
      simp only [matchChainD]
      induction nodes with
      | nil => rfl
      | cons n rest ihn =>
        simp only [List.foldr_cons, ihn, siblingStep]
        by_cases hm : (nodeMatch n p).matched = true
        · have hrest : (nodeMatch n p).rest.length < p.length :=
            nodeMatch_rest_length n p hm
          rw [ih f2 n.childrenOf (nodeMatch n p).rest (by omega) (by omega)]
        · simp [hm]

theorem matchChain_nil (p : String) : matchChain [] p = none := by
  simp [matchChain, matchChainD]

theorem matchChain_cons (n : RouteNode) (siblings : List RouteNode) (p : String) :
    matchChain (n :: siblings) p =
      match chainAt n p with
      | some c => some c
      | none => matchChain siblings p := by
  have hfold : matchChain (n :: siblings) p =
      siblingStep (matchChainD p.length) p n
        (matchChainD (p.length + 1) siblings p) := by
    simp [matchChain, matchChainD]
  rw [hfold]
  simp only [siblingStep, chainAt]
  by_cases hm : (nodeMatch n p).matched = true
  · by_cases he : (nodeMatch n p).exactlyMatched = true
    · simp [hm, he]
    · have hrest : (nodeMatch n p).rest.length < p.length :=
        nodeMatch_rest_length n p hm
      have hst : matchChainD p.length n.childrenOf (nodeMatch n p).rest =
          matchChain n.childrenOf (nodeMatch n p).rest := by
        apply matchChainD_stable <;> omega
      rw [hst]
      simp only [hm, he, Bool.false_eq_true, if_true, if_false]
      cases matchChain n.childrenOf (nodeMatch n p).rest <;>
        simp [matchChain]
  · simp [hm, matchChain]

/-! Helper lemmas about the before-hook loops. -/

theorem beforeLeaveLoop_all_true (h : HookEnv) (od : Nat → Bool)
    (hod : ∀ j, od j = false) :
    ∀ (lst : List (List String)) (k : Nat),
      (∀ n ∈ lst, h.beforeLeave n = true) →
      beforeLeaveLoop h od k lst =
        ⟨k + lst.length, lst.map (fun n => Event.beforeLeave n true), .proceed⟩ := by
  intro lst
  induction lst with
  | nil => intro k _; simp [beforeLeaveLoop]
  | cons n rest ih =>
    intro k hall
    have hn : h.beforeLeave n = true := hall n (by simp)
    have hrest : ∀ m ∈ rest, h.beforeLeave m = true := fun m hm => hall m (by simp [hm])
    simp [beforeLeaveLoop, hod k, hn, ih (k + 1) hrest]
    omega

theorem beforeLeaveLoop_not_stale (h : HookEnv) (od : Nat → Bool)
    (hod : ∀ j, od j = false) :
    ∀ (lst : List (List String)) (k : Nat),
      (beforeLeaveLoop h od k lst).out ≠ .stale := by
  intro lst
  induction lst with
  | nil => intro k; simp [beforeLeaveLoop]
  | cons n rest ih =>
    intro k
    cases hr : h.beforeLeave n <;>
      simp [beforeLeaveLoop, hod k, hr, ih (k + 1)]

theorem beforeLeaveLoop_events (h : HookEnv) (od : Nat → Bool) :
    ∀ (lst : List (List String)) (k : Nat) (e : Event),
      e ∈ (beforeLeaveLoop h od k lst).evs →
      ∃ n b, n ∈ lst ∧ e = Event.beforeLeave n b := by
  intro lst
  induction lst with
  | nil => intro k e he; simp [beforeLeaveLoop] at he
  | cons n rest ih =>
    intro k e he
    by_cases hk : od k
    · simp [beforeLeaveLoop, hk] at he
      exact ⟨n, h.beforeLeave n, by simp, he⟩
    · cases hr : h.beforeLeave n with
      | false =>
        simp [beforeLeaveLoop, hk, hr] at he
        exact ⟨n, false, by simp, he⟩
      | true =>
        simp [beforeLeaveLoop, hk, hr] at he
        rcases he with he | he
        · exact ⟨n, true, by simp, he⟩
        · obtain ⟨m, b, hm, hb⟩ := ih (k + 1) e he
          exact ⟨m, b, by simp [hm], hb⟩

theorem beforeLeaveLoop_proceed_true (h : HookEnv) (od : Nat → Bool) :
    ∀ (lst : List (List String)) (k : Nat),
      (beforeLeaveLoop h od k lst).out = .proceed →
      ∀ e ∈ (beforeLeaveLoop h od k lst).evs,
        ∃ n, n ∈ lst ∧ e = Event.beforeLeave n true := by
  intro lst
  induction lst with
  | nil => intro k _ e he; simp [beforeLeaveLoop] at he
  | cons n rest ih =>
    intro k hout e he
    by_cases hk : od k
    · simp [beforeLeaveLoop, hk] at hout
    · cases hr : h.beforeLeave n with
      | false => simp [beforeLeaveLoop, hk, hr] at hout
      | true =>
        simp [beforeLeaveLoop, hk, hr] at hout he
        rcases he with he | he
        · exact ⟨n, by simp, he⟩
        · obtain ⟨m, hm, hb⟩ := ih (k + 1) hout e he
          exact ⟨m, by simp [hm], hb⟩

theorem beforeEnterLoop_all_true (h : HookEnv) (od : Nat → Bool)
    (prevKeys : List (List String)) (hod : ∀ j, od j = false) :
    ∀ (lst : List (List String)) (k : Nat),
      (∀ n ∈ lst, h.beforeEnter n = true) →
      (∀ n ∈ lst, h.beforeUpdate n = true) →
      beforeEnterLoop h od prevKeys k lst =
        ⟨k + lst.length,
          lst.map (fun n =>
            if prevKeys.contains n then Event.beforeUpdate n true
            else Event.beforeEnter n true),
          .proceed⟩ := by
  intro lst
  induction lst with
  | nil => intro k _ _; simp [beforeEnterLoop]
  | cons n rest ih =>
    intro k hallE hallU
    have hrestE : ∀ m ∈ rest, h.beforeEnter m = true := fun m hm => hallE m (by simp [hm])
    have hrestU : ∀ m ∈ rest, h.beforeUpdate m = true := fun m hm => hallU m (by simp [hm])
    by_cases hc : n ∈ prevKeys <;>
      simp [beforeEnterLoop, hod k, hc, hallE n (by simp), hallU n (by simp),
        ih (k + 1) hrestE hrestU] <;> omega

theorem beforeEnterLoop_not_stale (h : HookEnv) (od : Nat → Bool)
    (prevKeys : List (List String)) (hod : ∀ j, od j = false) :
    ∀ (lst : List (List String)) (k : Nat),
      (beforeEnterLoop h od prevKeys k lst).out ≠ .stale := by
  intro lst
  induction lst with
  | nil => intro k; simp [beforeEnterLoop]
  | cons n rest ih =>
    intro k
    by_cases hc : n ∈ prevKeys
    · cases hr : h.beforeUpdate n <;>
        simp [beforeEnterLoop, hc, hod k, hr, ih (k + 1)]
    · cases hr : h.beforeEnter n <;>
        simp [beforeEnterLoop, hc, hod k, hr, ih (k + 1)]

theorem beforeEnterLoop_events (h : HookEnv) (od : Nat → Bool)
    (prevKeys : List (List String)) :
    ∀ (lst : List (List String)) (k : Nat) (e : Event),
      e ∈ (beforeEnterLoop h od prevKeys k lst).evs →
      ∃ n b, n ∈ lst ∧ (e = Event.beforeEnter n b ∨ e = Event.beforeUpdate n b) := by
  intro lst
  induction lst with
  | nil => intro k e he; simp [beforeEnterLoop] at he
  | cons n rest ih =>
    intro k e he
    by_cases hc : n ∈ prevKeys
    · cases hr : h.beforeUpdate n with
      | false =>
        by_cases hk : od k <;> simp [beforeEnterLoop, hc, hr, hk] at he <;>
          exact ⟨n, false, by simp, Or.inr he⟩
      | true =>
        by_cases hk : od k
        · simp [beforeEnterLoop, hc, hr, hk] at he
          exact ⟨n, true, by simp, Or.inr he⟩
        · simp [beforeEnterLoop, hc, hr, hk] at he
          rcases he with he | he
          · exact ⟨n, true, by simp, Or.inr he⟩
          · obtain ⟨m, b, hm, hb⟩ := ih (k + 1) e he
            exact ⟨m, b, by simp [hm], hb⟩
    · cases hr : h.beforeEnter n with
      | false =>
        by_cases hk : od k <;> simp [beforeEnterLoop, hc, hr, hk] at he <;>
          exact ⟨n, false, by simp, Or.inl he⟩
      | true =>
        by_cases hk : od k
        · simp [beforeEnterLoop, hc, hr, hk] at he
          exact ⟨n, true, by simp, Or.inl he⟩
        · simp [beforeEnterLoop, hc, hr, hk] at he
          rcases he with he | he
          · exact ⟨n, true, by simp, Or.inl he⟩
          · obtain ⟨m, b, hm, hb⟩ := ih (k + 1) e he
            exact ⟨m, b, by simp [hm], hb⟩

theorem beforeEnterLoop_proceed_true (h : HookEnv) (od : Nat → Bool)
    (prevKeys : List (List String)) :
    ∀ (lst : List (List String)) (k : Nat),
      (beforeEnterLoop h od prevKeys k lst).out = .proceed →
      ∀ e ∈ (beforeEnterLoop h od prevKeys k lst).evs,
        ∃ n, n ∈ lst ∧
          (e = Event.beforeEnter n true ∨ e = Event.beforeUpdate n true) := by
  intro lst
  induction lst with
  | nil => intro k _ e he; simp [beforeEnterLoop] at he
  | cons n rest ih =>
    intro k hout e he
    by_cases hk : od k
    · by_cases hc : n ∈ prevKeys <;>
        simp [beforeEnterLoop, hc, hk] at hout
    · by_cases hc : n ∈ prevKeys
      · cases hr : h.beforeUpdate n with
        | false => simp [beforeEnterLoop, hc, hr, hk] at hout
        | true =>
          simp [beforeEnterLoop, hc, hr, hk] at hout he
          rcases he with he | he
          · exact ⟨n, by simp, Or.inr he⟩
          · obtain ⟨m, hm, hb⟩ := ih (k + 1) hout e he
            exact ⟨m, by simp [hm], hb⟩
      · cases hr : h.beforeEnter n with
        | false => simp [beforeEnterLoop, hc, hr, hk] at hout
        | true =>
          simp [beforeEnterLoop, hc, hr, hk] at hout he
          rcases he with he | he
          · exact ⟨n, by simp, Or.inl he⟩
          · obtain ⟨m, hm, hb⟩ := ih (k + 1) hout e he
            exact ⟨m, by simp [hm], hb⟩

/-! The exhaustive case analysis of one `_asyncOnLocationChange` run. -/

theorem runShape (cfg : RouterConfig) (h : HookEnv) (od : Nat → Bool)
    (st : RouterState) (next : Location) :
    (od 0 = true ∧
      asyncOnLocationChange cfg h od st next = ⟨st, [], [], .staleEntry⟩) ∨
    (od 0 = false ∧ locEqualsCommitted st.location next = true ∧
      asyncOnLocationChange cfg h od st next = ⟨st, [], [], .noop⟩) ∨
    (od 0 = false ∧ locEqualsCommitted st.location next = false ∧
      testBase next.pathname cfg.pfx = false ∧
      asyncOnLocationChange cfg h od st next =
        ⟨st, [Effect.onLeave next.pathname], [], .leftBase⟩) ∨
    (od 0 = false ∧ locEqualsCommitted st.location next = false ∧
      testBase next.pathname cfg.pfx = true ∧
      (((beforeLeaveLoop h od 1 (leavingOf cfg st next).reverse).out = .stale ∧
        asyncOnLocationChange cfg h od st next =
          ⟨⟨st.source, computeNextSource cfg next, st.location⟩, [],
            (beforeLeaveLoop h od 1 (leavingOf cfg st next).reverse).evs, .stale⟩) ∨
       ((beforeLeaveLoop h od 1 (leavingOf cfg st next).reverse).out = .vetoed ∧
        asyncOnLocationChange cfg h od st next =
          ⟨⟨st.source, computeNextSource cfg next, st.location⟩,
            [Effect.replace (st.location.getD cfg.fallback)],
            (beforeLeaveLoop h od 1 (leavingOf cfg st next).reverse).evs, .vetoed⟩) ∨
       ((beforeLeaveLoop h od 1 (leavingOf cfg st next).reverse).out = .proceed ∧
        (beforeEnterLoop h od (prevKeysOf st)
            (beforeLeaveLoop h od 1 (leavingOf cfg st next).reverse).k
            (eauOf cfg st next)).out = .stale ∧
        asyncOnLocationChange cfg h od st next =
          ⟨⟨st.source, computeNextSource cfg next, st.location⟩, [],
            (beforeLeaveLoop h od 1 (leavingOf cfg st next).reverse).evs ++
              (beforeEnterLoop h od (prevKeysOf st)
                (beforeLeaveLoop h od 1 (leavingOf cfg st next).reverse).k
                (eauOf cfg st next)).evs, .stale⟩) ∨
       ((beforeLeaveLoop h od 1 (leavingOf cfg st next).reverse).out = .proceed ∧
        (beforeEnterLoop h od (prevKeysOf st)
            (beforeLeaveLoop h od 1 (leavingOf cfg st next).reverse).k
            (eauOf cfg st next)).out = .vetoed ∧
        asyncOnLocationChange cfg h od st next =
          ⟨⟨st.source, computeNextSource cfg next, st.location⟩,
            [Effect.replace (st.location.getD cfg.fallback)],
            (beforeLeaveLoop h od 1 (leavingOf cfg st next).reverse).evs ++
              (beforeEnterLoop h od (prevKeysOf st)
                (beforeLeaveLoop h od 1 (leavingOf cfg st next).reverse).k
                (eauOf cfg st next)).evs, .vetoed⟩) ∨
       ((beforeLeaveLoop h od 1 (leavingOf cfg st next).reverse).out = .proceed ∧
        (beforeEnterLoop h od (prevKeysOf st)
            (beforeLeaveLoop h od 1 (leavingOf cfg st next).reverse).k
            (eauOf cfg st next)).out = .proceed ∧
        asyncOnLocationChange cfg h od st next =
          ⟨⟨computeNextSource cfg next, computeNextSource cfg next, some next⟩,
            [Effect.onChange st.location next],
            (beforeLeaveLoop h od 1 (leavingOf cfg st next).reverse).evs ++
              (beforeEnterLoop h od (prevKeysOf st)
                (beforeLeaveLoop h od 1 (leavingOf cfg st next).reverse).k
                (eauOf cfg st next)).evs ++
              updEventsOf cfg st next ++ afterEventsOf cfg st next,
            .committed⟩))) := by
  by_cases h0 : od 0
  · exact Or.inl ⟨h0, by simp [asyncOnLocationChange, h0]⟩
  · by_cases h1 : locEqualsCommitted st.location next
    · refine Or.inr (Or.inl ⟨by simpa using h0, h1, ?_⟩)
      simp [asyncOnLocationChange, h0, h1]
    · by_cases h2 : testBase next.pathname cfg.pfx
      · refine Or.inr (Or.inr (Or.inr ⟨by simpa using h0, by simpa using h1, h2, ?_⟩))
        cases hout1 : (beforeLeaveLoop h od 1 (leavingOf cfg st next).reverse).out with
        | stale =>
          exact Or.inl ⟨rfl, by simp [asyncOnLocationChange, h0, h1, h2, hout1]⟩
        | vetoed =>
          exact Or.inr (Or.inl ⟨rfl, by simp [asyncOnLocationChange, h0, h1, h2, hout1]⟩)
        | proceed =>
          cases hout2 : (beforeEnterLoop h od (prevKeysOf st)
              (beforeLeaveLoop h od 1 (leavingOf cfg st next).reverse).k
              (eauOf cfg st next)).out with
          | stale =>
            exact Or.inr (Or.inr (Or.inl ⟨rfl, rfl,
              by simp [asyncOnLocationChange, h0, h1, h2, hout1, hout2]⟩))
          | vetoed =>
            exact Or.inr (Or.inr (Or.inr (Or.inl ⟨rfl, rfl,
              by simp [asyncOnLocationChange, h0, h1, h2, hout1, hout2]⟩)))
          | proceed =>
            exact Or.inr (Or.inr (Or.inr (Or.inr ⟨rfl, rfl,
              by simp [asyncOnLocationChange, h0, h1, h2, hout1, hout2]⟩)))
      · refine Or.inr (Or.inr (Or.inl ⟨by simpa using h0, by simpa using h1,
          by simpa using h2, ?_⟩))
        simp [asyncOnLocationChange, h0, h1, h2]

/-! Helper lemmas about the group-slot map and the computed next source. -/

theorem groupMapSet_mem (m : List (Option String × List ChainEntry))
    (k : Option String) (v : List ChainEntry) (a : Option String)
    (b : List ChainEntry) (hmem : (a, b) ∈ groupMapSet m k v) :
    (a, b) ∈ m ∨ (a = k ∧ b = v) := by
  unfold groupMapSet at hmem
  split at hmem
  · obtain ⟨p, hp, heq⟩ := List.mem_map.mp hmem
    by_cases hk : p.1 == k
    · rw [if_pos hk] at heq
      have h1 : k = a := congrArg Prod.fst heq
      have h2 : v = b := congrArg Prod.snd heq
      exact Or.inr ⟨h1.symm, h2.symm⟩
    · rw [if_neg hk] at heq
      exact Or.inl (heq ▸ hp)
  · rcases List.mem_append.mp hmem with hin | hin
    · exact Or.inl hin
    · right
      simpa using hin

theorem buildGroupMap_go_mem (nodes : List RouteNode) :
    ∀ (infos : List (String × Option String))
      (acc : List (Option String × List ChainEntry))
      (a : Option String) (b : List ChainEntry),
      (a, b) ∈ infos.foldl (groupMapStep nodes) acc →
      (a, b) ∈ acc ∨
        ∃ path, (path, a) ∈ infos ∧ matchChain nodes path = some b ∧
          b.isEmpty = false ∧
          (b.head?.map (fun e => e.node.groupOf)) = some a := by
  intro infos
  induction infos with
  | nil => intro acc a b hmem; exact Or.inl hmem
  | cons info rest ih =>
    intro acc a b hmem
    simp only [List.foldl_cons] at hmem
    rcases ih (groupMapStep nodes acc info) a b hmem with hin | ⟨path, hmem2, hrest⟩
    · unfold groupMapStep at hin
      cases hmc : matchChain nodes info.1 with
      | none => rw [hmc] at hin; simp at hin; exact Or.inl hin
      | some entries =>
        rw [hmc] at hin
        simp only [Option.getD_some] at hin
        by_cases hemp : entries.isEmpty
        · rw [if_pos hemp] at hin; exact Or.inl hin
        · rw [if_neg hemp] at hin
          by_cases hgrp : (entries.head?.map (fun e => e.node.groupOf)) == some info.2
          · rw [if_pos hgrp] at hin
            rcases groupMapSet_mem acc info.2 entries a b hin with hacc | ⟨ha, hb⟩
            · exact Or.inl hacc
            · right
              refine ⟨info.1, by simp [ha], by rw [hmc, hb],
                by rw [hb]; simpa using hemp, ?_⟩
              rw [hb, ha]
              exact eq_of_beq hgrp
          · rw [if_neg hgrp] at hin; exact Or.inl hin
    · exact Or.inr ⟨path, by simp [hmem2], hrest⟩

theorem buildGroupMap_mem (nodes : List RouteNode)
    (infos : List (String × Option String)) (a : Option String)
    (b : List ChainEntry) (hmem : (a, b) ∈ buildGroupMap nodes infos) :
    ∃ path, (path, a) ∈ infos ∧ matchChain nodes path = some b ∧
      b.isEmpty = false ∧
      (b.head?.map (fun e => e.node.groupOf)) = some a := by
  rcases buildGroupMap_go_mem nodes infos [] a b hmem with hin | hfound
  · simp at hin
  · exact hfound

theorem extractGroups_infos_some :
    ∀ (gs : List String) (q : List (String × String)),
      ∀ pr ∈ (extractGroups gs q).1, pr.2.isSome = true := by
  intro gs
  induction gs with
  | nil => intro q pr hpr; simp [extractGroups] at hpr
  | cons g rest ih =>
    intro q pr hpr
    simp only [extractGroups] at hpr
    split at hpr
    · exact ih q pr hpr
    · rename_i v hd
      split at hpr
      · exact ih (dictDelete q ("_" ++ g)) pr hpr
      · rcases List.mem_cons.mp hpr with heq2 | hin
        · rw [heq2]; rfl
        · exact ih (dictDelete q ("_" ++ g)) pr hin

theorem mergeParallel_no_primary (gm : List (Option String × List ChainEntry))
    (hget : groupMapGet gm none = none) : mergeParallel gm = [] := by
  unfold mergeParallel
  rw [hget]

theorem groupMapGet_none (nodes : List RouteNode) (p0 : String)
    (ginfos : List (String × Option String))
    (hnone : matchChain nodes p0 = none)
    (hsome : ∀ pr ∈ ginfos, pr.2.isSome = true) :
    groupMapGet (buildGroupMap nodes ((p0, (none : Option String)) :: ginfos)) none =
      none := by
  unfold groupMapGet
  rw [Option.map_eq_none']
  rw [List.find?_eq_none]
  rintro ⟨p1, p2⟩ hp hbeq
  have hp1 : p1 = none := by simpa using hbeq
  subst hp1
  obtain ⟨path, hin, hmc, _, _⟩ := buildGroupMap_mem nodes _ none p2 hp
  rcases List.mem_cons.mp hin with heq | hin2
  · have hpath : path = p0 := congrArg Prod.fst heq
    rw [hpath, hnone] at hmc
    exact Option.noConfusion hmc
  · simpa using hsome _ hin2

theorem computeNextSource_no_primary (cfg : RouterConfig) (next : Location)
    (hnone : matchChain cfg.children (strippedPath cfg next) = none) :
    (computeNextSource cfg next).matchToMatchEntryMap = [] := by
  simp only [computeNextSource]
  rcases hE : extractGroups cfg.groups (parseSearch next.search) with ⟨ginfos, gpd, qd⟩
  simp only [hE]
  have hsome : ∀ pr ∈ ginfos, pr.2.isSome = true := by
    intro pr hpr
    exact extractGroups_infos_some cfg.groups (parseSearch next.search) pr
      (by rw [hE]; exact hpr)
  rw [mergeParallel_no_primary _ (groupMapGet_none cfg.children _ ginfos hnone hsome)]
  rfl

/-! Classification of the commit-phase events. -/

theorem updEventsOf_not_falsy (cfg : RouterConfig) (st : RouterState)
    (next : Location) : ∀ e ∈ updEventsOf cfg st next, falsyBefore e = false := by
  intro e he
  unfold updEventsOf at he
  rcases List.mem_append.mp he with he | he <;>
    obtain ⟨n, _, hn⟩ := List.mem_map.mp he <;> rw [← hn] <;> rfl

theorem updEventsOf_hookNode (cfg : RouterConfig) (st : RouterState)
    (next : Location) : ∀ e ∈ updEventsOf cfg st next, hookNodeOf e = none := by
  intro e he
  unfold updEventsOf at he
  rcases List.mem_append.mp he with he | he <;>
    obtain ⟨n, _, hn⟩ := List.mem_map.mp he <;> rw [← hn] <;> rfl

theorem afterEventsOf_not_falsy (cfg : RouterConfig) (st : RouterState)
    (next : Location) : ∀ e ∈ afterEventsOf cfg st next, falsyBefore e = false := by
  intro e he
  unfold afterEventsOf at he
  rcases List.mem_append.mp he with he | he
  · obtain ⟨n, _, hn⟩ := List.mem_map.mp he
    rw [← hn]; rfl
  · obtain ⟨n, _, hn⟩ := List.mem_map.mp he
    rw [← hn]
    split <;> rfl

theorem afterEventsOf_nodes (cfg : RouterConfig) (st : RouterState)
    (next : Location) :
    ∀ e ∈ afterEventsOf cfg st next, ∀ n, hookNodeOf e = some n →
      n ∈ leavingOf cfg st next ∨ n ∈ eauOf cfg st next := by
  intro e he n hn
  unfold afterEventsOf at he
  rcases List.mem_append.mp he with he | he
  · obtain ⟨m, hm, hmo⟩ := List.mem_map.mp he
    rw [← hmo] at hn
    have : m = n := by simpa [hookNodeOf] using hn
    exact Or.inl (this ▸ List.mem_reverse.mp hm)
  · obtain ⟨m, hm, hmo⟩ := List.mem_map.mp he
    rw [← hmo] at hn
    have : m = n := by
      split at hn <;> simpa [hookNodeOf] using hn
    exact Or.inr (this ▸ hm)

/-! Claim theorems. -/

/-- C3: processing a location structurally equal to the last committed one is
a no-op: no hooks fire, no `_update` calls happen, and neither the committed
nor the speculative snapshot (nor the committed location) changes. -/
theorem c3_noop (cfg : RouterConfig) (h : HookEnv) (od : Nat → Bool)
    (st : RouterState) (next loc : Location)
    (hloc : st.location = some loc) (heq : isLocationEqual loc next = true) :
    (asyncOnLocationChange cfg h od st next).state = st ∧
    (asyncOnLocationChange cfg h od st next).effects = [] ∧
    (asyncOnLocationChange cfg h od st next).events = [] := by
  have hleq : locEqualsCommitted st.location next = true := by
    rw [hloc]
    simpa [locEqualsCommitted] using heq
  by_cases h0 : od 0
  · simp [asyncOnLocationChange, h0]
  · simp [asyncOnLocationChange, h0, hleq]

/-- Witness for C3 at a concrete state: re-processing the committed `/about`
location leaves the state untouched and fires nothing. -/
theorem c3_witness :
    (asyncOnLocationChange c1cfg allTrue odF c1st ⟨"/about", ""⟩).state = c1st ∧
    (asyncOnLocationChange c1cfg allTrue odF c1st ⟨"/about", ""⟩).effects = [] ∧
    (asyncOnLocationChange c1cfg allTrue odF c1st ⟨"/about", ""⟩).events = [] :=
  c3_noop c1cfg allTrue odF c1st ⟨"/about", ""⟩ ⟨"/about", ""⟩ rfl (by decide)

/-- C4 counterexample: the legacy `"*"` pattern compiles to the regular
expression `[^/]*`, which matches the empty segment — on the path `"/"` the
match succeeds capturing the empty string, contradicting the claim that `"*"`
never matches an empty segment. -/
theorem c4_counterexample :
    Legacy.matchStep Legacy.CompiledPattern.star false "/" =
      .ok (some "", "") := rfl

theorem all_takeWhile {α : Type} (p : α → Bool) :
    ∀ l : List α, ((l.takeWhile p).all p) = true := by
  intro l
  induction l with
  | nil => rfl
  | cons a t ih =>
    by_cases ha : p a <;> simp [List.takeWhile_cons, ha, ih]

/-- C4 (amended): the legacy `"*"` pattern captures the run of non-`/`
characters at the current position — it never consumes more than one segment
(the captured text contains no `/`), but the captured segment may be empty
(witnessed on the path `"/"`). -/
theorem c4_star_segment :
    (∀ (skipped : Bool) (rest c r2 : String),
        Legacy.matchStep Legacy.CompiledPattern.star skipped rest =
          .ok (some c, r2) →
        c.data.all (fun ch => ch ≠ '/') = true) ∧
    Legacy.matchStep Legacy.CompiledPattern.star false "/" =
      .ok (some "", "") := by
  constructor
  · intro skipped rest c r2 hok
    simp only [Legacy.matchStep, Legacy.execCompiled] at hok
    split at hok
    · simp at hok
    · split at hok
      · simp at hok
      · split at hok
        · simp at hok
        · simp at hok
          have hc : c = takeSeg (strDrop rest 1) := hok.1.symm
          rw [hc]
          exact all_takeWhile _ _
  · rfl

/-- Witness for C4 (amended) at a concrete path: `"*"` captures `foo` from
`/foo/bar`, and the captured text contains no `/`. -/
theorem c4_witness :
    Legacy.matchStep Legacy.CompiledPattern.star false "/foo/bar" =
      .ok (some "foo", "/bar") ∧
    ("foo" : String).data.all (fun ch => ch ≠ '/') = true :=
  ⟨rfl, c4_star_segment.1 false "/foo/bar" "foo" "/bar" rfl⟩

/-- C5 counterexample: a non-global regular expression whose matched text is
not followed by a separator or end-of-path passes the legacy constructor
(no build-time error) and instead throws at match time during navigation —
contradicting the claim that this misconfiguration is raised synchronously at
tree-build time. -/
theorem c5_counterexample :
    (Legacy.construct (Legacy.MatchInput.rx c5rx)).isOk = true ∧
    Legacy.matchStep (Legacy.CompiledPattern.rx c5rx) false "/abc" =
      .error Legacy.invalidPatternMsg := ⟨rfl, rfl⟩

/-- C5 (amended): only the global-flag check happens at construction; a
custom pattern whose matched text does not stop at a path boundary is
detected during matching at navigation time and raised as a thrown error
(never reported as a silent runtime no-match). -/
theorem c5_malformed_raises_at_match :
    (∀ r : Legacy.Rx, r.global = false →
      Legacy.construct (Legacy.MatchInput.rx r) = .ok (.rx r)) ∧
    (∀ (r : Legacy.Rx) (rest m : String),
      rest.data.head? = some '/' →
      r.exec (strDrop rest 1) = some m →
      segBoundaryOk (strDrop rest 1) m = false →
      Legacy.matchStep (Legacy.CompiledPattern.rx r) false rest =
        .error Legacy.invalidPatternMsg) := by
  constructor
  · intro r hg
    simp [Legacy.construct, hg]
  · intro r rest m hhead hexec hbad
    have hne : (rest == "") = false := by
      cases rest with
      | mk l =>
        cases l with
        | nil => simp at hhead
        | cons ch t =>
          apply beq_eq_false_iff_ne.mpr
          intro hcontra
          exact List.noConfusion (congrArg String.data hcontra)
    simp [Legacy.matchStep, Legacy.execCompiled, hne, hhead, hexec, hbad]

/-- Witness for C5 (amended): the concrete malformed pattern `c5rx` builds
fine and throws on `/abc`. -/
theorem c5_witness :
    Legacy.construct (Legacy.MatchInput.rx c5rx) = .ok (.rx c5rx) ∧
    Legacy.matchStep (Legacy.CompiledPattern.rx c5rx) false "/abc" =
      .error Legacy.invalidPatternMsg :=
  ⟨c5_malformed_raises_at_match.1 c5rx rfl,
   c5_malformed_raises_at_match.2 c5rx "/abc" "ab" rfl rfl (by decide)⟩

/-- C7 counterexample: on a node with no declared query keys, `$query` throws
only before the first `_push`; after the node has successfully matched (a
`_push` with a captured segment), `_query` holds an object and `$query`
returns it without raising — contradicting "raises at every time, including
after the node has matched". -/
theorem c7_counterexample :
    (Legacy.queryGet Legacy.initialState).isOk = false ∧
    (Legacy.push "about" (Legacy.CompiledPattern.str "about") none
        Legacy.initialState false "/about" [] [] []).map
      (fun pr => (pr.1.matched, (Legacy.queryGet pr.1).isOk)) =
      .ok (true, true) := ⟨rfl, rfl⟩

/-- C7 (amended): `$query` raises only while the node has never been pushed;
every successful `_push` (matched or not) stores a query dict, after which
`$query` returns it without raising. -/
theorem c7_query_after_push :
    (Legacy.queryGet Legacy.initialState).isOk = false ∧
    (∀ (name : String) (pat : Legacy.CompiledPattern)
      (queryKeys : Option (List String)) (st : Legacy.MatchState)
      (skipped : Bool) (upperRest : String)
      (ufd : List (String × Option String))
      (uqd : List (String × String)) (sqd : List (String × String))
      (st2 : Legacy.MatchState) (r : Legacy.PushResult),
      Legacy.push name pat queryKeys st skipped upperRest ufd uqd sqd =
        .ok (st2, r) →
      Legacy.queryGet st2 = .ok r.queryDict) := by
  constructor
  · rfl
  · intro name pat queryKeys st skipped upperRest ufd uqd sqd st2 r hok
    unfold Legacy.push at hok
    split at hok
    · exact absurd hok (by simp)
    · simp at hok
      obtain ⟨hst, hr⟩ := hok
      rw [← hst, ← hr]
      rfl

/-- Witness for C7 (amended): after the concrete matched push of the
counterexample, `$query` returns the empty dict. -/
theorem c7_witness :
    Legacy.queryGet
        (⟨true, some [("about", some "about")], some []⟩ : Legacy.MatchState) =
      .ok [] :=
  c7_query_after_push.2 "about" (Legacy.CompiledPattern.str "about") none
    Legacy.initialState false "/about" [] [] []
    ⟨true, some [("about", some "about")], some []⟩
    ⟨true, "", [("about", some "about")], []⟩ rfl

/-- C2 counterexample: sibling `first` (declared first) has a pattern that
matches the next segment of `/first/z`, yet the resulting chain is the one of
the later sibling `second` — the matcher backtracks to later siblings when an
earlier matching sibling's subtree fails, contradicting "the first sibling
whose pattern matches the next segment wins the match". -/
theorem c2_counterexample :
    (nodeMatch c2first "/first/z").matched = true ∧
    chainIds (matchChain [c2first, c2second] "/first/z") =
      some [["second"], ["second", "z"]] := by
  constructor <;> decide

/-- C2 (amended): siblings are tried in declaration order and the first
sibling from which a complete chain results wins, regardless of pattern
specificity; a sibling whose own pattern matches but whose subtree produces
no chain is skipped in favour of later siblings. -/
theorem c2_first_complete_sibling_wins
    (pre post : List RouteNode) (n : RouteNode) (p : String)
    (c : List ChainEntry)
    (hpre : ∀ m ∈ pre, chainAt m p = none)
    (hn : chainAt n p = some c) :
    matchChain (pre ++ n :: post) p = some c := by
  induction pre with
  | nil =>
    rw [List.nil_append, matchChain_cons, hn]
  | cons m rest ih =>
    have hm : chainAt m p = none := hpre m (by simp)
    have hrest : ∀ x ∈ rest, chainAt x p = none := fun x hx => hpre x (by simp [hx])
    rw [List.cons_append, matchChain_cons, hm]
    exact ih hrest

/-- Witness for C2 (amended): with `first` unable to complete on `/first/z`,
the first completing sibling `second` provides the chain. -/
theorem c2_witness :
    chainIds (matchChain [c2first, c2second] "/first/z") =
      some [["second"], ["second", "z"]] := by
  have hchain : chainAt c2second "/first/z" =
      some [⟨c2second, false, "first"⟩,
            ⟨RouteNode.mk ["second", "z"] (.str "z") false none none [],
              true, "z"⟩] := rfl
  have hres := c2_first_complete_sibling_wins [c2first] [] c2second "/first/z" _
    (by
      intro m hm
      have hmeq : m = c2first := by simpa using hm
      rw [hmeq]
      rfl) hchain
  rw [show ([c2first] ++ c2second :: []) = [c2first, c2second] from rfl] at hres
  rw [hres]
  rfl

/-- C6 counterexample: the group slot `g1` (query parameter `_g1`) resolves
the chain `g1top → c` whose leaf `c` has inherited group `g2 ≠ g1`; the
engine nevertheless accepts the chain (it only compares the chain's first
entry's group with the slot), so both nodes appear in the merged
matched-entry map — contradicting "a chain whose leaf's group differs from
the slot is discarded". -/
theorem c6_counterexample :
    chainGroups (matchChain c6cfg.children "/g1top/c") =
      some [some "g1", some "g2"] ∧
    (computeNextSource c6cfg c6loc).matchToMatchEntryMap.map (fun pr => pr.1) =
      [["p"], ["g1top"], ["g1top", "c"]] := by
  constructor <;> decide

/-- C6 (amended): a chain is accepted into a group slot exactly when the
group of its first (topmost) matched node equals the slot's group; the leaf's
group is irrelevant when overridden mid-chain. -/
theorem c6_head_group_filter (nodes : List RouteNode)
    (infos : List (String × Option String)) (g : Option String)
    (entries : List ChainEntry)
    (hget : groupMapGet (buildGroupMap nodes infos) g = some entries) :
    ∃ path, (path, g) ∈ infos ∧ matchChain nodes path = some entries ∧
      entries.isEmpty = false ∧
      (entries.head?.map (fun e => e.node.groupOf)) = some g := by
  unfold groupMapGet at hget
  rcases hfind : (buildGroupMap nodes infos).find? (fun pr => pr.1 == g) with _ | pr
  · rw [hfind] at hget
    simp at hget
  · rw [hfind] at hget
    simp at hget
    have hmem := List.mem_of_find?_eq_some hfind
    have hkey : pr.1 = g := by
      have := List.find?_some hfind
      simpa using this
    have hpair : (g, entries) = pr := by
      rw [← hkey, ← hget]
    exact buildGroupMap_mem nodes infos g entries (hpair ▸ hmem)

/-- Witness for C6 (amended): the slot `g1` of the counterexample scenario is
produced by the path `/g1top/c` and its first node's group is `g1`. -/
theorem c6_witness :
    ∃ path, (path, some "g1") ∈ [("/g1top/c", some "g1")] ∧
      matchChain c6cfg.children path = some c6chain ∧
      c6chain.isEmpty = false ∧
      (c6chain.head?.map (fun e => e.node.groupOf)) = some (some "g1") :=
  c6_head_group_filter c6cfg.children [("/g1top/c", some "g1")] (some "g1")
    c6chain rfl

/-- C10: when the primary (prefix-stripped) pathname matches no top-level
chain, the computed next matched-entry map is empty even if group paths
resolve independently; every previously matched node leaves (its
`beforeLeave` hook runs and it is deactivated) and the committed matched set
becomes empty. -/
theorem c10_no_primary_empty (cfg : RouterConfig) (h : HookEnv) (od : Nat → Bool)
    (st : RouterState) (next : Location)
    (hod : ∀ j, od j = false)
    (hooks : ∀ n, h.beforeLeave n = true)
    (hneq : locEqualsCommitted st.location next = false)
    (hbase : testBase next.pathname cfg.pfx = true)
    (hnone : matchChain cfg.children (strippedPath cfg next) = none) :
    (computeNextSource cfg next).matchToMatchEntryMap = [] ∧
    (asyncOnLocationChange cfg h od st next).outcome = .committed ∧
    (asyncOnLocationChange cfg h od st next).state.source.matchToMatchEntryMap = [] ∧
    (asyncOnLocationChange cfg h od st next).state.location = some next ∧
    ∀ n ∈ prevKeysOf st,
      Event.beforeLeave n true ∈ (asyncOnLocationChange cfg h od st next).events ∧
      Event.update n false false ∈ (asyncOnLocationChange cfg h od st next).events := by
  have hempty := computeNextSource_no_primary cfg next hnone
  have hnextKeys : nextKeysOf cfg next = [] := by
    unfold nextKeysOf
    rw [hempty]
    rfl
  have hleav : leavingOf cfg st next = prevKeysOf st := by
    unfold leavingOf
    rw [hnextKeys]
    simp
  have heau : eauOf cfg st next = [] := by
    unfold eauOf
    rw [hnextKeys]
    rfl
  have hr1 := beforeLeaveLoop_all_true h od hod ((leavingOf cfg st next).reverse) 1
    (fun n _ => hooks n)
  rcases runShape cfg h od st next with ⟨h0, _⟩ | ⟨_, hleq, _⟩ | ⟨_, _, hb, _⟩ |
    ⟨_, _, _, hcase⟩
  · rw [hod 0] at h0
    exact absurd h0 (by simp)
  · rw [hneq] at hleq
    exact absurd hleq (by simp)
  · rw [hbase] at hb
    exact absurd hb (by simp)
  · rcases hcase with ⟨ho1, _⟩ | ⟨ho1, _⟩ | ⟨_, ho2, _⟩ | ⟨_, ho2, _⟩ | ⟨_, _, hres⟩
    · rw [hr1] at ho1
      exact absurd ho1 (by simp)
    · rw [hr1] at ho1
      exact absurd ho1 (by simp)
    · rw [heau] at ho2
      exact absurd ho2 (by simp [beforeEnterLoop])
    · rw [heau] at ho2
      exact absurd ho2 (by simp [beforeEnterLoop])
    · refine ⟨hempty, by rw [hres], by rw [hres]; exact hempty, by rw [hres], ?_⟩
      intro n hn
      have hnrev : n ∈ (leavingOf cfg st next).reverse := by
        rw [hleav]
        simpa using hn
      constructor
      · rw [hres]
        simp only [RunResult.events]
        refine List.mem_append.mpr (Or.inl (List.mem_append.mpr (Or.inl
          (List.mem_append.mpr (Or.inl ?_)))))
        rw [hr1]
        simp only [LoopRes.evs]
        exact List.mem_map.mpr ⟨n, hnrev, rfl⟩
      · rw [hres]
        simp only [RunResult.events]
        refine List.mem_append.mpr (Or.inl (List.mem_append.mpr (Or.inr ?_)))
        unfold updEventsOf
        exact List.mem_append.mpr (Or.inl (List.mem_map.mpr ⟨n, hnrev, rfl⟩))

/-- Witness for C10: navigating `c10st` (with `/persist` committed) to
`/nomatch?_g=/gtop` — the group path `/gtop` matches on its own, yet the
committed set empties and `persist` leaves. -/
theorem c10_witness :
    chainIds (matchChain c10cfg.children "/gtop") = some [["gtop"]] ∧
    (computeNextSource c10cfg ⟨"/nomatch", "?_g=/gtop"⟩).matchToMatchEntryMap = [] ∧
    (asyncOnLocationChange c10cfg allTrue odF c10st
        ⟨"/nomatch", "?_g=/gtop"⟩).outcome = .committed ∧
    (asyncOnLocationChange c10cfg allTrue odF c10st
        ⟨"/nomatch", "?_g=/gtop"⟩).state.source.matchToMatchEntryMap = [] ∧
    Event.beforeLeave ["persist"] true ∈
      (asyncOnLocationChange c10cfg allTrue odF c10st
        ⟨"/nomatch", "?_g=/gtop"⟩).events ∧
    Event.update ["persist"] false false ∈
      (asyncOnLocationChange c10cfg allTrue odF c10st
        ⟨"/nomatch", "?_g=/gtop"⟩).events := by
  have h := c10_no_primary_empty c10cfg allTrue odF c10st ⟨"/nomatch", "?_g=/gtop"⟩
    (fun _ => rfl) (fun _ => rfl) (by decide) (by decide) rfl
  have hmem := h.2.2.2.2 ["persist"] (by decide)
  exact ⟨by decide, h.1, h.2.1, h.2.2.1, hmem.1, hmem.2⟩

/-- C8: a transition abandoned because a staleness check after an awaited
before-hook observed a newer location is abandoned silently: no effect is
issued (in particular no `history.replace` revert), no `_update` call
happens, and the committed snapshot and the committed location are exactly
what they were before. -/
theorem c8_stale_abandons (cfg : RouterConfig) (h : HookEnv) (od : Nat → Bool)
    (st : RouterState) (next : Location)
    (hst : (asyncOnLocationChange cfg h od st next).outcome = .stale) :
    (asyncOnLocationChange cfg h od st next).state.source = st.source ∧
    (asyncOnLocationChange cfg h od st next).state.location = st.location ∧
    (asyncOnLocationChange cfg h od st next).effects = [] ∧
    ∀ e ∈ (asyncOnLocationChange cfg h od st next).events,
      isUpdateEvent e = false := by
  rcases runShape cfg h od st next with ⟨_, hres⟩ | ⟨_, _, hres⟩ | ⟨_, _, _, hres⟩ |
    ⟨_, _, _, hcase⟩
  · rw [hres] at hst
    exact absurd hst (by simp)
  · rw [hres] at hst
    exact absurd hst (by simp)
  · rw [hres] at hst
    exact absurd hst (by simp)
  · rcases hcase with ⟨_, hres⟩ | ⟨_, hres⟩ | ⟨_, _, hres⟩ | ⟨_, _, hres⟩ | ⟨_, _, hres⟩
    · refine ⟨by rw [hres], by rw [hres], by rw [hres], ?_⟩
      intro e he
      rw [hres] at he
      simp only [RunResult.events] at he
      obtain ⟨n, b, _, hb⟩ := beforeLeaveLoop_events h od _ 1 e he
      rw [hb]
      rfl
    · rw [hres] at hst
      exact absurd hst (by simp)
    · refine ⟨by rw [hres], by rw [hres], by rw [hres], ?_⟩
      intro e he
      rw [hres] at he
      simp only [RunResult.events] at he
      rcases List.mem_append.mp he with he | he
      · obtain ⟨n, b, _, hb⟩ := beforeLeaveLoop_events h od _ 1 e he
        rw [hb]
        rfl
      · obtain ⟨n, b, _, hb⟩ := beforeEnterLoop_events h od _ _ _ e he
        rcases hb with hb | hb <;> rw [hb] <;> rfl
    · rw [hres] at hst
      exact absurd hst (by simp)
    · rw [hres] at hst
      exact absurd hst (by simp)

/-- Witness for C8: the concrete run `c8run` (a newer location observed right
after `about`'s `beforeLeave` resolved) ends stale with nothing committed,
no effect and no update. -/
theorem c8_witness :
    c8run.outcome = .stale ∧
    c8run.state.source = c1st.source ∧
    c8run.state.location = c1st.location ∧
    c8run.effects = [] := by
  have h := c8_stale_abandons c1cfg allTrue odStale c1st ⟨"/revert", ""⟩ (by decide)
  exact ⟨by decide, h.1, h.2.1, h.2.2.1⟩

/-- C1 counterexample: a `beforeEnter` hook fires and returns false, but the
very next staleness check observes a newer location; the engine abandons
silently — no `history.replace` is issued — contradicting the claim that
every transition in which some before-hook returns falsy ends with a replace
to the last committed (or default) location. -/
theorem c1_counterexample :
    c1staleRun.events.any falsyBefore = true ∧
    c1staleRun.effects = [] ∧
    c1staleRun.state.source = st0.source ∧
    c1staleRun.state.location = st0.location := by
  refine ⟨by decide, by decide, by decide, by decide⟩

/-- C1 (amended): in a transition that stays the latest requested throughout
(no staleness check fires), if some fired `beforeLeave`/`beforeEnter`/
`beforeUpdate` hook returns a falsy result, the engine does not commit — the
committed matched-entry map, query/path snapshot (the whole committed
source) and the committed location stay exactly as before — and the only
effect issued is a `history.replace` of the last committed location, or of
the configured default location if nothing has been committed yet. -/
theorem c1_veto_reverts (cfg : RouterConfig) (h : HookEnv) (od : Nat → Bool)
    (st : RouterState) (next : Location)
    (hod : ∀ j, od j = false)
    (hfalsy : (asyncOnLocationChange cfg h od st next).events.any falsyBefore = true) :
    (asyncOnLocationChange cfg h od st next).state.source = st.source ∧
    (asyncOnLocationChange cfg h od st next).state.location = st.location ∧
    (asyncOnLocationChange cfg h od st next).effects =
      [Effect.replace (st.location.getD cfg.fallback)] := by
  rcases runShape cfg h od st next with ⟨h0, _⟩ | ⟨_, _, hres⟩ | ⟨_, _, _, hres⟩ |
    ⟨_, _, _, hcase⟩
  · rw [hod 0] at h0
    exact absurd h0 (by simp)
  · rw [hres] at hfalsy
    exact absurd hfalsy (by simp)
  · rw [hres] at hfalsy
    exact absurd hfalsy (by simp)
  · rcases hcase with ⟨ho1, _⟩ | ⟨_, hres⟩ | ⟨_, ho2, _⟩ | ⟨_, _, hres⟩ | ⟨ho1, ho2, hres⟩
    · exact absurd ho1 (beforeLeaveLoop_not_stale h od hod _ 1)
    · exact ⟨by rw [hres], by rw [hres], by rw [hres]⟩
    · exact absurd ho2 (beforeEnterLoop_not_stale h od _ hod _ _)
    · exact ⟨by rw [hres], by rw [hres], by rw [hres]⟩
    · rw [hres] at hfalsy
      simp only [RunResult.events, List.any_eq_true] at hfalsy
      obtain ⟨e, he, hfe⟩ := hfalsy
      rcases List.mem_append.mp he with he | he
      · rcases List.mem_append.mp he with he | he
        · rcases List.mem_append.mp he with he | he
          · obtain ⟨n, _, hb⟩ := beforeLeaveLoop_proceed_true h od _ 1 ho1 e he
            rw [hb] at hfe
            exact absurd hfe (by simp [falsyBefore])
          · obtain ⟨n, _, hb⟩ := beforeEnterLoop_proceed_true h od _ _ _ ho2 e he
            rcases hb with hb | hb <;> rw [hb] at hfe <;>
              exact absurd hfe (by simp [falsyBefore])
        · rw [updEventsOf_not_falsy cfg st next e he] at hfe
          exact absurd hfe (by simp)
      · rw [afterEventsOf_not_falsy cfg st next e he] at hfe
        exact absurd hfe (by simp)

/-- Witness for C1 (amended): the concrete veto run `c1run` — `/about`
committed, falsy `beforeEnter` on `/revert`, never superseded — keeps the
committed state and issues exactly the replace back to `/about`. -/
theorem c1_witness :
    c1run.events.any falsyBefore = true ∧
    c1run.state.source = c1st.source ∧
    c1run.state.location = c1st.location ∧
    c1run.effects = [Effect.replace ⟨"/about", ""⟩] := by
  have h := c1_veto_reverts c1cfg c1hooks odF c1st ⟨"/revert", ""⟩
    (fun _ => rfl) (by decide)
  exact ⟨by decide, h.1, h.2.1, h.2.2.trans (by decide)⟩

/-- C9: in the scenario `parent: {$exact: true, $children: {nested: true}}`,
navigating to `/parent/nested` and then to `/parent` fires `parent`'s
`beforeUpdate` exactly once, on the second navigation (its exactness
changes), and not on the first (where `parent` enters via `beforeEnter`);
and in general a node present in both the committed and the next set whose
captured segments and exactness are both unchanged receives no enter, leave
or update hook at all during the transition. -/
theorem c9_update_on_exact_change :
    (c9run1.events.countP (fun e => match e with
        | Event.beforeUpdate n _ => n == ["parent"]
        | _ => false) = 0) ∧
    (c9run2.events.countP (fun e => match e with
        | Event.beforeUpdate n _ => n == ["parent"]
        | _ => false) = 1) ∧
    (c9run1.events.countP (fun e => match e with
        | Event.beforeEnter n _ => n == ["parent"]
        | _ => false) = 1) ∧
    (c9run2.events.countP (fun e => match e with
        | Event.beforeEnter n _ => n == ["parent"]
        | _ => false) = 0) ∧
    ∀ (cfg : RouterConfig) (h : HookEnv) (od : Nat → Bool) (st : RouterState)
      (next : Location) (n : List String),
      n ∈ prevKeysOf st →
      n ∈ nextKeysOf cfg next →
      segmentsOf st.source n = segmentsOf (computeNextSource cfg next) n →
      exactOfSrc st.source n = exactOfSrc (computeNextSource cfg next) n →
      ∀ e ∈ (asyncOnLocationChange cfg h od st next).events,
        hookNodeOf e ≠ some n := by
  refine ⟨by decide, by decide, by decide, by decide, ?_⟩
  intro cfg h od st next n hprev hnext hseg hexact e he hnode
  have hnl : n ∉ leavingOf cfg st next := by
    intro hmem
    rw [leavingOf, List.mem_filter] at hmem
    have h2 := hmem.2
    simp [hnext] at h2
  have hne : n ∉ eauOf cfg st next := by
    intro hmem
    rw [eauOf, List.mem_filter] at hmem
    have h2 := hmem.2
    simp [hprev, hseg, hexact] at h2
  have hleave : ∀ he2 : e ∈ (beforeLeaveLoop h od 1 (leavingOf cfg st next).reverse).evs,
      False := by
    intro he2
    obtain ⟨m, b, hm, hb⟩ := beforeLeaveLoop_events h od _ 1 e he2
    rw [hb] at hnode
    have : m = n := by simpa [hookNodeOf] using hnode
    exact hnl (this ▸ List.mem_reverse.mp hm)
  have henter : ∀ (k : Nat)
      (he2 : e ∈ (beforeEnterLoop h od (prevKeysOf st) k (eauOf cfg st next)).evs),
      False := by
    intro k he2
    obtain ⟨m, b, hm, hb⟩ := beforeEnterLoop_events h od _ _ k e he2
    rcases hb with hb | hb <;> rw [hb] at hnode <;>
      exact hne ((by simpa [hookNodeOf] using hnode : m = n) ▸ hm)
  rcases runShape cfg h od st next with ⟨_, hres⟩ | ⟨_, _, hres⟩ | ⟨_, _, _, hres⟩ |
    ⟨_, _, _, hcase⟩
  · rw [hres] at he
    simp at he
  · rw [hres] at he
    simp at he
  · rw [hres] at he
    simp at he
  · rcases hcase with ⟨_, hres⟩ | ⟨_, hres⟩ | ⟨_, _, hres⟩ | ⟨_, _, hres⟩ |
      ⟨_, _, hres⟩
    · rw [hres] at he
      exact hleave he
    · rw [hres] at he
      exact hleave he
    · rw [hres] at he
      rcases List.mem_append.mp he with he | he
      · exact hleave he
      · exact henter _ he
    · rw [hres] at he
      rcases List.mem_append.mp he with he | he
      · exact hleave he
      · exact henter _ he
    · rw [hres] at he
      simp only [RunResult.events] at he
      rcases List.mem_append.mp he with he | he
      · rcases List.mem_append.mp he with he | he
        · rcases List.mem_append.mp he with he | he
          · exact hleave he
          · exact henter _ he
        · rw [updEventsOf_hookNode cfg st next e he] at hnode
          exact Option.noConfusion hnode
      · rcases afterEventsOf_nodes cfg st next e he n hnode with hin | hin
        · exact hnl hin
        · exact hne hin

/-- Witness for C9's general part: `/about` stays committed with identical
segments and exactness when only the query changes, so no hook event
concerns it during the transition. -/
theorem c9_witness :
    ((asyncOnLocationChange c1cfg allTrue odF c1st ⟨"/about", "?x=1"⟩).events.all
      (fun e => hookNodeOf e != some ["about"])) = true := by
  apply List.all_eq_true.mpr
  intro e he
  have h := c9_update_on_exact_change.2.2.2.2 c1cfg allTrue odF c1st
    ⟨"/about", "?x=1"⟩ ["about"] (by decide) (by decide) (by decide) (by decide)
    e he
  simpa using h

end BR
